import Mathlib

/-!
Shallow embedding of the Pattern-Aggregation Calibration Engine of the
CorrELF repository (src/data/evaluation/...): pattern encoding, histogram
aggregation over record streams, confusion metrics from the 8x2 histogram,
per-record metric computation, weight post-processing and threshold
selection.  Machine floats of the source are modelled as rationals; a
missing or non-finite value is modelled as Option.none.
-/

namespace CorrELF

/-- Pattern encoding used by aggregate_counts in
src/data/evaluation/weight/find_weights.py line 67 and
src/data/evaluation/test/evaluate.py line 80:
pat = (ph shifted left 2) or (cr shifted left 1) or sm. -/
def recPattern (sm cr ph : Bool) : Fin 8 :=
  ⟨(cond ph 4 0) + (cond cr 2 0) + (cond sm 1 0), by
    cases sm <;> cases cr <;> cases ph <;> decide⟩

/-- Numeric value of one binary flag. -/
def bitVal (b : Bool) : ℚ := cond b 1 0

/-- Bit i of a pattern (bit 0 = string minhash, bit 1 = code regions,
bit 2 = program header). -/
def patBit (p : Fin 8) (i : ℕ) : Bool := Nat.testBit p.val i

/-- Combination weights (W_SM, W_CR, W_PH of evaluate.py lines 18-20). -/
structure Weights where
  wsm : ℚ
  wcr : ℚ
  wph : ℚ

/-- Per-pattern additive score: SCORES_BY_PATTERN of evaluate.py lines
22-31, expressed through the bits of the pattern. -/
def patScore (w : Weights) (p : Fin 8) : ℚ :=
  w.wsm * bitVal (patBit p 0) + w.wcr * bitVal (patBit p 1) + w.wph * bitVal (patBit p 2)

/-- Per-record score of scan_weighted_scores
(src/data/evaluation/train/final_threshold/find_threshold.py line 58):
s = W_SM * b_sm + W_CR * b_cr + W_PH * b_ph. -/
def recScore (w : Weights) (sm cr ph : Bool) : ℚ :=
  w.wsm * bitVal sm + w.wcr * bitVal cr + w.wph * bitVal ph

/-- The concrete weights hard-coded in evaluate.py lines 18-20. -/
def evalWeights : Weights := ⟨617/1000, 2946/10000, 884/10000⟩

/-- A record of the already binarized stream consumed by aggregate_counts:
three binary flags and a label, each None when the source value is missing
or non-finite (the np.isfinite mask of evaluate.py line 71). -/
structure BinRec where
  sm : Option Bool
  cr : Option Bool
  ph : Option Bool
  label : Option Bool

/-- All four fields of a record at once, None when any is missing. -/
def flagsOf (r : BinRec) : Option (Bool × Bool × Bool × Bool) :=
  match r.sm, r.cr, r.ph, r.label with
  | some s, some c, some p, some l => some (s, c, p, l)
  | _, _, _, _ => none

/-- A record passes the validity mask iff all four fields are present. -/
def recKept (r : BinRec) : Bool := (flagsOf r).isSome

/-- Pattern of a kept record (arbitrary on dropped records). -/
def patternOfRec (r : BinRec) : Fin 8 :=
  match flagsOf r with
  | some (s, c, p, _) => recPattern s c p
  | none => 0

/-- Label of a kept record (arbitrary on dropped records). -/
def labelOfRec (r : BinRec) : Bool :=
  match flagsOf r with
  | some (_, _, _, l) => l
  | none => false

/-- The 8x2 count matrix: counts_global of evaluate.py line 53, indexed by
pattern and label. -/
def Hist : Type := Fin 8 → Bool → ℕ

/-- The all-zero histogram (np.zeros((8,2))). -/
def emptyHist : Hist := fun _ _ => 0

/-- Increment one cell of the histogram. -/
def bump (h : Hist) (p : Fin 8) (l : Bool) : Hist :=
  fun q m => if q = p ∧ m = l then h q m + 1 else h q m

/-- One step of the aggregation loop: a record with all fields present
increments the cell of its pattern and label, any other record is skipped
(evaluate.py lines 71-87, find_weights.py lines 55-75). -/
def aggStep (h : Hist) (r : BinRec) : Hist :=
  match flagsOf r with
  | some (s, c, p, l) => bump h (recPattern s c p) l
  | none => h

/-- Streaming aggregation of a record list into the 8x2 histogram
(aggregate_counts of find_weights.py and evaluate.py, restricted to the
global counts). -/
def aggregate (rs : List BinRec) : Hist := rs.foldl aggStep emptyHist

/-- Number of records seen: total_seen of find_weights.py line 44. -/
def totalSeen (rs : List BinRec) : ℕ := rs.length

/-- Number of records kept by the validity mask: total_kept of
find_weights.py line 75. -/
def totalKept (rs : List BinRec) : ℕ := rs.countP recKept

/-- Number of records dropped by the validity mask. -/
def droppedCount (rs : List BinRec) : ℕ := rs.countP (fun r => !recKept r)

/-- Match predicate: record kept with the given pattern and label. -/
def cellMatch (p : Fin 8) (l : Bool) (r : BinRec) : Bool :=
  recKept r && decide (patternOfRec r = p) && decide (labelOfRec r = l)

theorem aggStep_apply (h : Hist) (r : BinRec) (p : Fin 8) (l : Bool) :
    aggStep h r p l = h p l + (if cellMatch p l r then 1 else 0) := by
  cases hf : flagsOf r with
  | none => simp [aggStep, cellMatch, recKept, hf]
  | some t =>
    obtain ⟨s, c, q, lb⟩ := t
    simp only [aggStep, cellMatch, recKept, patternOfRec, labelOfRec, hf,
      Option.isSome_some, Bool.true_and, bump, Bool.and_eq_true, decide_eq_true_eq]
    by_cases hp : p = recPattern s c q
    · by_cases hl : l = lb
      · simp [hp, hl]
      · simp [hp, hl, Ne.symm hl]
    · simp [hp, Ne.symm hp]

theorem foldl_aggStep_apply (rs : List BinRec) (init : Hist) (p : Fin 8) (l : Bool) :
    rs.foldl aggStep init p l = init p l + rs.countP (cellMatch p l) := by
  induction rs generalizing init with
  | nil => simp
  | cons r rs ih =>
    rw [List.foldl_cons, ih, List.countP_cons, aggStep_apply]
    omega

/-- Each cell of the aggregated histogram counts exactly the kept records
with that pattern and label. -/
theorem aggregate_apply (rs : List BinRec) (p : Fin 8) (l : Bool) :
    aggregate rs p l = rs.countP (cellMatch p l) := by
  unfold aggregate
  rw [foldl_aggStep_apply]
  simp [emptyHist]

theorem countP_split {α : Type} (l : List α) (p q : α → Bool) :
    l.countP p = l.countP (fun a => p a && q a) + l.countP (fun a => p a && !q a) := by
  induction l with
  | nil => simp
  | cons a l ih =>
    simp only [List.countP_cons, ih]
    cases hp : p a <;> cases hq : q a <;> simp <;> omega

theorem sum_bool_indicator (g : Fin 8 → Bool) (b : Bool) (x : Fin 8) :
    (∑ p : Fin 8, if g p then (if b && decide (x = p) then 1 else 0) else 0)
      = (if b && g x then (1 : ℕ) else 0) := by
  cases b
  · simp
  · simp only [Bool.true_and]
    have hterm : ∀ p : Fin 8,
        (if g p then (if decide (x = p) then (1 : ℕ) else 0) else 0)
          = if x = p then (if g p then 1 else 0) else 0 := by
      intro p
      by_cases hx : x = p <;> by_cases hg : g p <;> simp [hx, hg]
    rw [Finset.sum_congr rfl (fun p _ => hterm p), Finset.sum_ite_eq]
    simp

theorem countP_fin_partition {α : Type} (l : List α) (q : α → Bool)
    (f : α → Fin 8) (g : Fin 8 → Bool) :
    (∑ p : Fin 8, if g p then l.countP (fun a => q a && decide (f a = p)) else 0)
      = l.countP (fun a => q a && g (f a)) := by
  induction l with
  | nil => simp
  | cons a l ih =>
    simp only [List.countP_cons]
    have hsplit : (∑ p : Fin 8, if g p then
          (l.countP (fun a2 => q a2 && decide (f a2 = p))
            + if q a && decide (f a = p) then 1 else 0) else 0)
        = (∑ p : Fin 8, if g p then l.countP (fun a2 => q a2 && decide (f a2 = p)) else 0)
          + (∑ p : Fin 8, if g p then (if q a && decide (f a = p) then 1 else 0) else 0) := by
      rw [← Finset.sum_add_distrib]
      refine Finset.sum_congr rfl (fun p _ => ?_)
      by_cases hg : g p <;> simp [hg]
    rw [hsplit, ih, sum_bool_indicator]

/-- The cell predicate, reordered so that the pattern test comes last. -/
theorem cellMatch_reorder (p : Fin 8) (l : Bool) (r : BinRec) :
    cellMatch p l r
      = ((recKept r && decide (labelOfRec r = l)) && decide (patternOfRec r = p)) := by
  simp only [cellMatch]
  cases recKept r <;> cases hp : decide (patternOfRec r = p) <;>
    cases hl : decide (labelOfRec r = l) <;> simp_all

/- Confusion counts read off the 8x2 histogram: eval_thresholds_from_counts
of src/data/evaluation/test/evaluate.py lines 121-134, parametrized by the
weights defining the per-pattern score. -/

/-- total_pos of evaluate.py line 125: the label-1 column sum. -/
def histPos (h : Hist) : ℕ := ∑ p : Fin 8, h p true

/-- total_neg of evaluate.py line 126: the label-0 column sum. -/
def histNeg (h : Hist) : ℕ := ∑ p : Fin 8, h p false

/-- Total count of the histogram. -/
def histTotal (h : Hist) : ℕ := ∑ p : Fin 8, (h p false + h p true)

/-- tp at a threshold: label-1 counts of patterns whose score reaches the
threshold (evaluate.py lines 130-131). -/
def tpAt (w : Weights) (h : Hist) (t : ℚ) : ℕ :=
  ∑ p : Fin 8, if t ≤ patScore w p then h p true else 0

/-- fp at a threshold: label-0 counts of patterns whose score reaches the
threshold (evaluate.py line 132). -/
def fpAt (w : Weights) (h : Hist) (t : ℚ) : ℕ :=
  ∑ p : Fin 8, if t ≤ patScore w p then h p false else 0

/-- fn = total_pos - tp (evaluate.py line 133). -/
def fnAt (w : Weights) (h : Hist) (t : ℚ) : ℕ := histPos h - tpAt w h t

/-- tn = total_neg - fp (evaluate.py line 134). -/
def tnAt (w : Weights) (h : Hist) (t : ℚ) : ℕ := histNeg h - fpAt w h t

/- Direct per-record path: scan_weighted_scores and metrics_at_threshold of
src/data/evaluation/train/final_threshold/find_threshold.py. -/

/-- Scored sample built from a record stream: each kept record contributes
its label and its weighted score, dropped records contribute nothing
(scan_weighted_scores, lines 45-75 of find_threshold.py). -/
def scoredSample (w : Weights) (rs : List BinRec) : List (Bool × ℚ) :=
  rs.filterMap (fun r => (flagsOf r).map
    (fun t => (t.2.2.2, recScore w t.1 t.2.1 t.2.2.1)))

/-- tp of metrics_at_threshold (find_threshold.py line 79): records with
prediction 1 (score at or above the threshold) and label 1. -/
def directTP (sample : List (Bool × ℚ)) (t : ℚ) : ℕ :=
  sample.countP (fun q => q.1 && decide (t ≤ q.2))

/-- fp of metrics_at_threshold (line 80). -/
def directFP (sample : List (Bool × ℚ)) (t : ℚ) : ℕ :=
  sample.countP (fun q => !q.1 && decide (t ≤ q.2))

/-- tn of metrics_at_threshold (line 81). -/
def directTN (sample : List (Bool × ℚ)) (t : ℚ) : ℕ :=
  sample.countP (fun q => !q.1 && !decide (t ≤ q.2))

/-- fn of metrics_at_threshold (line 82). -/
def directFN (sample : List (Bool × ℚ)) (t : ℚ) : ℕ :=
  sample.countP (fun q => q.1 && !decide (t ≤ q.2))

/-- The per-pattern additive score agrees with the per-record score on the
encoded pattern: the bit-order convention is consistent between the two. -/
theorem patScore_recPattern (w : Weights) (s c p : Bool) :
    patScore w (recPattern s c p) = recScore w s c p := by
  cases s <;> cases c <;> cases p <;> rfl

theorem cell_sum_count (w : Weights) (rs : List BinRec) (t : ℚ) (l : Bool) :
    (∑ p : Fin 8, if t ≤ patScore w p then aggregate rs p l else 0)
      = rs.countP (fun r => (recKept r && decide (labelOfRec r = l))
          && decide (t ≤ patScore w (patternOfRec r))) := by
  have hcell : ∀ p : Fin 8, aggregate rs p l
      = rs.countP (fun r => (recKept r && decide (labelOfRec r = l))
          && decide (patternOfRec r = p)) := by
    intro p
    rw [aggregate_apply]
    exact List.countP_congr (fun r _ => by rw [cellMatch_reorder])
  have hsum := countP_fin_partition rs
    (fun r => recKept r && decide (labelOfRec r = l)) patternOfRec
    (fun p => decide (t ≤ patScore w p))
  simp only [decide_eq_true_eq] at hsum
  rw [Finset.sum_congr rfl (fun p _ => by rw [hcell p])]
  exact hsum

theorem hist_col_count (rs : List BinRec) (l : Bool) :
    (∑ p : Fin 8, aggregate rs p l)
      = rs.countP (fun r => recKept r && decide (labelOfRec r = l)) := by
  have hcell : ∀ p : Fin 8, aggregate rs p l
      = rs.countP (fun r => (recKept r && decide (labelOfRec r = l))
          && decide (patternOfRec r = p)) := by
    intro p
    rw [aggregate_apply]
    exact List.countP_congr (fun r _ => by rw [cellMatch_reorder])
  have hsum := countP_fin_partition rs
    (fun r => recKept r && decide (labelOfRec r = l)) patternOfRec
    (fun _ => true)
  simp only [if_true, Bool.and_true] at hsum
  rw [Finset.sum_congr rfl (fun p _ => by rw [hcell p])]
  exact hsum

theorem scoredSample_countP (w : Weights) (rs : List BinRec)
    (pr : Bool × ℚ → Bool) :
    (scoredSample w rs).countP pr
      = rs.countP (fun r =>
          recKept r && pr (labelOfRec r, patScore w (patternOfRec r))) := by
  unfold scoredSample
  rw [List.countP_filterMap]
  refine List.countP_congr (fun r _ => ?_)
  cases hf : flagsOf r with
  | none => simp [hf, recKept]
  | some tup =>
    obtain ⟨s, c, q, lb⟩ := tup
    simp [hf, recKept, patternOfRec, labelOfRec, patScore_recPattern]

/-- C1.  Sufficient-statistic correctness: for every stream of records and
every weights and threshold, the confusion counts computed from the
aggregated 8x2 histogram (tp and fp by summing label-1 and label-0 counts
over patterns whose additive score reaches the threshold, fn and tn as the
complements) equal the counts obtained by scoring every record
individually and comparing each score to the threshold directly. -/
theorem claim1_sufficient_statistic (w : Weights) (rs : List BinRec) (t : ℚ) :
    tpAt w (aggregate rs) t = directTP (scoredSample w rs) t ∧
    fpAt w (aggregate rs) t = directFP (scoredSample w rs) t ∧
    tnAt w (aggregate rs) t = directTN (scoredSample w rs) t ∧
    fnAt w (aggregate rs) t = directFN (scoredSample w rs) t := by
  have htp : tpAt w (aggregate rs) t = directTP (scoredSample w rs) t := by
    unfold tpAt directTP
    rw [cell_sum_count, scoredSample_countP]
    refine List.countP_congr (fun r _ => ?_)
    cases hk : recKept r <;> cases hl : labelOfRec r <;>
      cases hs : decide (t ≤ patScore w (patternOfRec r)) <;> simp_all
  have hfp : fpAt w (aggregate rs) t = directFP (scoredSample w rs) t := by
    unfold fpAt directFP
    rw [cell_sum_count, scoredSample_countP]
    refine List.countP_congr (fun r _ => ?_)
    cases hk : recKept r <;> cases hl : labelOfRec r <;>
      cases hs : decide (t ≤ patScore w (patternOfRec r)) <;> simp_all
  have hposs : histPos (aggregate rs)
      = directTP (scoredSample w rs) t + directFN (scoredSample w rs) t := by
    unfold histPos directTP directFN
    rw [hist_col_count, scoredSample_countP, scoredSample_countP]
    rw [countP_split rs (fun r => recKept r && decide (labelOfRec r = true))
      (fun r => decide (t ≤ patScore w (patternOfRec r)))]
    congr 1
    · exact List.countP_congr (fun r _ => by
        cases hk : recKept r <;> cases hl : labelOfRec r <;>
          cases hs : decide (t ≤ patScore w (patternOfRec r)) <;> simp_all)
    · exact List.countP_congr (fun r _ => by
        cases hk : recKept r <;> cases hl : labelOfRec r <;>
          cases hs : decide (t ≤ patScore w (patternOfRec r)) <;> simp_all)
  have hnegs : histNeg (aggregate rs)
      = directFP (scoredSample w rs) t + directTN (scoredSample w rs) t := by
    unfold histNeg directFP directTN
    rw [hist_col_count, scoredSample_countP, scoredSample_countP]
    rw [countP_split rs (fun r => recKept r && decide (labelOfRec r = false))
      (fun r => decide (t ≤ patScore w (patternOfRec r)))]
    congr 1
    · exact List.countP_congr (fun r _ => by
        cases hk : recKept r <;> cases hl : labelOfRec r <;>
          cases hs : decide (t ≤ patScore w (patternOfRec r)) <;> simp_all)
    · exact List.countP_congr (fun r _ => by
        cases hk : recKept r <;> cases hl : labelOfRec r <;>
          cases hs : decide (t ≤ patScore w (patternOfRec r)) <;> simp_all)
  refine ⟨htp, hfp, ?_, ?_⟩
  · unfold tnAt
    omega
  · unfold fnAt
    omega

/-- C4.  Histogram merge additivity: the histogram aggregated over the
concatenation of two record streams equals, cell by cell, the sum of the
histograms aggregated over each stream separately. -/
theorem claim4_merge_additivity (A B : List BinRec) (p : Fin 8) (l : Bool) :
    aggregate (A ++ B) p l = aggregate A p l + aggregate B p l := by
  simp [aggregate_apply, List.countP_append]

/-- C9.  Count conservation: the total of all 16 cells of the aggregated
histogram equals the number of kept records, and kept plus dropped records
account for every record seen. -/
theorem claim9_count_conservation (rs : List BinRec) :
    histTotal (aggregate rs) = totalKept rs ∧
    totalKept rs + droppedCount rs = totalSeen rs := by
  constructor
  · unfold histTotal totalKept
    rw [Finset.sum_add_distrib, hist_col_count, hist_col_count]
    rw [countP_split rs recKept labelOfRec]
    rw [Nat.add_comm]
    congr 1
    · exact List.countP_congr (fun r _ => by
        cases hk : recKept r <;> cases hl : labelOfRec r <;> simp_all)
    · exact List.countP_congr (fun r _ => by
        cases hk : recKept r <;> cases hl : labelOfRec r <;> simp_all)
  · unfold totalKept droppedCount totalSeen
    rw [List.length_eq_countP_add_countP recKept]
    congr 1
    exact List.countP_congr (fun r _ => by cases hk : recKept r <;> simp_all)

/-- One output row of eval_thresholds_from_counts
(src/data/evaluation/test/evaluate.py lines 129-150): confusion counts at
one threshold together with the derived metrics, every division guarded by
its denominator. -/
structure MetricsRow where
  threshold : ℚ
  tp : ℕ
  fp : ℕ
  tn : ℕ
  fn : ℕ
  tpr : ℚ
  fpr : ℚ
  precision : ℚ
  specificity : ℚ
  accuracy : ℚ
  f1 : ℚ
  youdenJ : ℚ
  samplePos : ℕ
  sampleNeg : ℕ

/-- The metrics row at one threshold, translated from evaluate.py lines
129-150. -/
def metricsRowAt (w : Weights) (h : Hist) (t : ℚ) : MetricsRow :=
  let totalPos := histPos h
  let totalNeg := histNeg h
  let tp := tpAt w h t
  let fp := fpAt w h t
  let fn := totalPos - tp
  let tn := totalNeg - fp
  let tpr : ℚ := if totalPos = 0 then 0 else (tp : ℚ) / (totalPos : ℚ)
  let fpr : ℚ := if totalNeg = 0 then 0 else (fp : ℚ) / (totalNeg : ℚ)
  { threshold := t
    tp := tp
    fp := fp
    tn := tn
    fn := fn
    tpr := tpr
    fpr := fpr
    precision := if tp + fp = 0 then 0 else (tp : ℚ) / ((tp : ℚ) + (fp : ℚ))
    specificity := if totalNeg = 0 then 0 else (tn : ℚ) / (totalNeg : ℚ)
    accuracy := if totalPos + totalNeg = 0 then 0
      else ((tp : ℚ) + (tn : ℚ)) / ((totalPos : ℚ) + (totalNeg : ℚ))
    f1 := if 2 * tp + fp + fn = 0 then 0
      else (2 * (tp : ℚ)) / (2 * (tp : ℚ) + (fp : ℚ) + (fn : ℚ))
    youdenJ := tpr - fpr
    samplePos := totalPos
    sampleNeg := totalNeg }

theorem tpAt_le_histPos (w : Weights) (h : Hist) (t : ℚ) :
    tpAt w h t ≤ histPos h := by
  unfold tpAt histPos
  refine Finset.sum_le_sum (fun p _ => ?_)
  split
  · exact Nat.le_refl _
  · exact Nat.zero_le _

theorem fpAt_le_histNeg (w : Weights) (h : Hist) (t : ℚ) :
    fpAt w h t ≤ histNeg h := by
  unfold fpAt histNeg
  refine Finset.sum_le_sum (fun p _ => ?_)
  split
  · exact Nat.le_refl _
  · exact Nat.zero_le _

theorem histTotal_eq (h : Hist) : histTotal h = histNeg h + histPos h := by
  unfold histTotal histNeg histPos
  rw [Finset.sum_add_distrib]

/-- C10.  Confusion-count partition: at every threshold the metrics row of
the histogram satisfies tp + fn = sample_pos and fp + tn = sample_neg,
where sample_pos and sample_neg are the label-1 and label-0 column sums,
and the four counts together exactly partition the histogram total. -/
theorem claim10_confusion_partition (w : Weights) (h : Hist) (t : ℚ) :
    (metricsRowAt w h t).tp + (metricsRowAt w h t).fn = histPos h ∧
    (metricsRowAt w h t).fp + (metricsRowAt w h t).tn = histNeg h ∧
    (metricsRowAt w h t).tp + (metricsRowAt w h t).fp + (metricsRowAt w h t).tn
        + (metricsRowAt w h t).fn = histTotal h ∧
    (metricsRowAt w h t).samplePos = histPos h ∧
    (metricsRowAt w h t).sampleNeg = histNeg h := by
  have htp := tpAt_le_histPos w h t
  have hfp := fpAt_le_histNeg w h t
  have htot := histTotal_eq h
  unfold metricsRowAt
  refine ⟨by simp; omega, by simp; omega, by simp; omega, by simp, by simp⟩

/-- C8.  Degenerate-metrics totality: each derived metric of the metrics
row is division-guarded and evaluates to 0 whenever its denominator is 0;
the computation is total, for any histogram including the all-zero one. -/
theorem claim8_degenerate_metrics (w : Weights) (h : Hist) (t : ℚ) :
    (histPos h = 0 → (metricsRowAt w h t).tpr = 0) ∧
    (histNeg h = 0 → (metricsRowAt w h t).fpr = 0) ∧
    ((metricsRowAt w h t).tp + (metricsRowAt w h t).fp = 0 →
      (metricsRowAt w h t).precision = 0) ∧
    (histNeg h = 0 → (metricsRowAt w h t).specificity = 0) ∧
    (histPos h + histNeg h = 0 → (metricsRowAt w h t).accuracy = 0) ∧
    (2 * (metricsRowAt w h t).tp + (metricsRowAt w h t).fp
        + (metricsRowAt w h t).fn = 0 → (metricsRowAt w h t).f1 = 0) := by
  unfold metricsRowAt
  refine ⟨fun hp => by simp [hp], fun hn => by simp [hn], fun hpf => ?_,
    fun hn => by simp [hn], fun hpn => by simp [hpn.symm] at hpn ⊢,
    fun hf => ?_⟩
  · simp only at hpf ⊢
    simp [hpf]
  · simp only at hf ⊢
    simp [hf]

/-- At the all-zero histogram every guarded metric evaluates to 0. -/
theorem claim8_witness :
    (metricsRowAt evalWeights emptyHist (1/2)).tpr = 0 ∧
    (metricsRowAt evalWeights emptyHist (1/2)).fpr = 0 ∧
    (metricsRowAt evalWeights emptyHist (1/2)).precision = 0 ∧
    (metricsRowAt evalWeights emptyHist (1/2)).specificity = 0 ∧
    (metricsRowAt evalWeights emptyHist (1/2)).accuracy = 0 ∧
    (metricsRowAt evalWeights emptyHist (1/2)).f1 = 0 := by
  obtain ⟨h1, h2, h3, h4, h5, h6⟩ :=
    claim8_degenerate_metrics evalWeights emptyHist (1/2)
  refine ⟨h1 (by decide), h2 (by decide), h3 ?_, h4 (by decide),
    h5 (by decide), h6 ?_⟩
  · simp [metricsRowAt, tpAt, fpAt, emptyHist, ite_self]
  · simp [metricsRowAt, tpAt, fpAt, histPos, emptyHist, ite_self]

/- Weight post-processing of fit_weights_aggregated
(src/data/evaluation/weight/find_weights.py lines 124-130) and of
fit_weights_and_threshold (weight_and_threshold/weight_finding/
train_weights.py lines 72-73): clip the fitted coefficients to
non-negative, fall back to the uniform vector when their sum is not
positive, otherwise renormalize to sum 1. -/

/-- Post-processing of the logistic-regression coefficient vector into the
final weight vector. -/
def postWeights (coef : List ℚ) : List ℚ :=
  let c := coef.map (fun x => max x 0)
  let s := c.sum
  if s ≤ 0 then coef.map (fun _ => 1 / (coef.length : ℚ))
  else c.map (fun x => x / s)

theorem sum_map_div (l : List ℚ) (s : ℚ) :
    (l.map (fun x => x / s)).sum = l.sum / s := by
  induction l with
  | nil => simp
  | cons x l ih => simp [ih, add_div]

theorem clipped_sum_nonneg (l : List ℚ) : 0 ≤ (l.map (fun x => max x 0)).sum := by
  refine List.sum_nonneg (fun x hx => ?_)
  obtain ⟨y, _, rfl⟩ := List.mem_map.mp hx
  exact le_max_right y 0

/-- C2.  Weight normalization: for every non-empty coefficient vector the
post-processed weight vector has only non-negative entries and sums to
exactly 1, and when the clipped coefficients sum to 0 it is the uniform
vector with every entry 1/n. -/
theorem claim2_weight_normalization (coef : List ℚ) (hne : coef ≠ []) :
    (∀ x ∈ postWeights coef, 0 ≤ x) ∧
    (postWeights coef).sum = 1 ∧
    ((coef.map (fun x => max x 0)).sum = 0 →
      postWeights coef = coef.map (fun _ => 1 / (coef.length : ℚ))) := by
  have hlen : (0 : ℚ) < (coef.length : ℚ) := by
    have : 0 < coef.length := List.length_pos.mpr hne
    exact_mod_cast this
  unfold postWeights
  by_cases hs : (coef.map (fun x => max x 0)).sum ≤ 0
  · rw [if_pos hs]
    refine ⟨fun x hx => ?_, ?_, fun _ => rfl⟩
    · obtain ⟨y, _, rfl⟩ := List.mem_map.mp hx
      positivity
    · rw [show (fun _ : ℚ => 1 / (coef.length : ℚ))
          = Function.const ℚ (1 / (coef.length : ℚ)) from rfl]
      rw [List.map_const, List.sum_replicate, nsmul_eq_mul]
      field_simp
  · rw [if_neg hs]
    have hpos : 0 < (coef.map (fun x => max x 0)).sum := by
      rcases lt_or_le 0 ((coef.map (fun x => max x 0)).sum) with hlt | hle
      · exact hlt
      · exact absurd hle hs
    refine ⟨fun x hx => ?_, ?_, fun h0 => ?_⟩
    · obtain ⟨y, hy, rfl⟩ := List.mem_map.mp hx
      obtain ⟨z, _, rfl⟩ := List.mem_map.mp hy
      have h1 : (0:ℚ) ≤ max z 0 := le_max_right z 0
      positivity
    · rw [sum_map_div]
      exact div_self (ne_of_gt hpos)
    · exact absurd (h0 ▸ hpos) (lt_irrefl 0)

/-- Coefficient vector [2, -1, 0] post-processes to a non-negative vector
summing to 1. -/
theorem claim2_witness :
    (∀ x ∈ postWeights [2, -1, 0], 0 ≤ x) ∧ (postWeights [2, -1, 0]).sum = 1 :=
  ⟨(claim2_weight_normalization [2, -1, 0] (by decide)).1,
   (claim2_weight_normalization [2, -1, 0] (by decide)).2.1⟩

/- The synthetic weighted design of build_weighted_design
(src/data/evaluation/weight/find_weights.py lines 80-103). -/

/-- W_SM of evaluate.py line 18. -/
def wSM : ℚ := 0.6170

/-- W_CR of evaluate.py line 19. -/
def wCR : ℚ := 0.2946

/-- W_PH of evaluate.py line 20. -/
def wPH : ℚ := 0.0884

/-- SCORES_BY_PATTERN of evaluate.py lines 22-31. -/
def scoresByPattern : List ℚ :=
  [0, wSM, wCR, wSM + wCR, wPH, wSM + wPH, wCR + wPH, wSM + wCR + wPH]

/-- Insertion into an increasing duplicate-free list. -/
def insertSorted (x : ℚ) : List ℚ → List ℚ
  | [] => [x]
  | y :: ys =>
    if x < y then x :: y :: ys
    else if x = y then y :: ys
    else y :: insertSorted x ys

/-- sorted(set(xs)): the distinct values of xs in increasing order
(evaluate.py line 155). -/
def sortedDistinct (xs : List ℚ) : List ℚ := xs.foldr insertSorted []

/-- auto_thresholds of evaluate.py lines 154-155. -/
def autoThresholds : List ℚ := sortedDistinct scoresByPattern

/-- The SCORES_BY_PATTERN table agrees with the additive per-pattern score
under the hard-coded weights: entry p is patScore at pattern p. -/
theorem scoresByPattern_eq :
    scoresByPattern = (List.finRange 8).map (patScore evalWeights) := by
  rw [show List.finRange 8 = [0, 1, 2, 3, 4, 5, 6, 7] from by decide]
  rw [show (0 : Fin 8) = recPattern false false false from by decide,
      show (1 : Fin 8) = recPattern true false false from by decide,
      show (2 : Fin 8) = recPattern false true false from by decide,
      show (3 : Fin 8) = recPattern true true false from by decide,
      show (4 : Fin 8) = recPattern false false true from by decide,
      show (5 : Fin 8) = recPattern true false true from by decide,
      show (6 : Fin 8) = recPattern false true true from by decide,
      show (7 : Fin 8) = recPattern true true true from by decide]
  simp only [List.map_cons, List.map_nil, scoresByPattern, patScore_recPattern]
  norm_num [recScore, evalWeights, bitVal, wSM, wCR, wPH]

/-- The evaluated threshold list, in closed form. -/
theorem autoThresholds_eq :
    autoThresholds = [0, 0.0884, 0.2946, 0.3830, 0.6170, 0.7054, 0.9116, 1] := by
  norm_num [autoThresholds, sortedDistinct, scoresByPattern, insertSorted,
    wSM, wCR, wPH]

/-- youdenJ of the metrics row at one threshold (evaluate.py line 142),
under the hard-coded weights. -/
def youdenAt (h : Hist) (t : ℚ) : ℚ := (metricsRowAt evalWeights h t).youdenJ

/-- Best-Youden selection of evaluate.py lines 205-209: np.argmax returns
the first index attaining the maximum, so the fold moves only on a strict
improvement. -/
def bestYouden (h : Hist) (thrs : List ℚ) : Option ℚ :=
  match thrs with
  | [] => none
  | t :: ts => some (ts.foldl (fun best u =>
      if youdenAt h best < youdenAt h u then u else best) t)

/-- First-maximum fold over a weakly increasing list: the result is a
member, attains the maximal key, and is the least element among the
maximizers. -/
theorem foldl_argmax_spec (J : ℚ → ℚ) :
    ∀ (ts : List ℚ) (b : ℚ), (b :: ts).Pairwise (· ≤ ·) →
      (ts.foldl (fun best u => if J best < J u then u else best) b) ∈ b :: ts ∧
      (∀ u ∈ b :: ts,
        J u ≤ J (ts.foldl (fun best u => if J best < J u then u else best) b)) ∧
      (∀ u ∈ b :: ts,
        J u = J (ts.foldl (fun best u => if J best < J u then u else best) b) →
          (ts.foldl (fun best u => if J best < J u then u else best) b) ≤ u) := by
  intro ts
  induction ts with
  | nil =>
    intro b _
    refine ⟨List.mem_singleton_self b, ?_, ?_⟩
    · intro u hu
      simp only [List.foldl_nil]
      exact le_of_eq (congrArg J (List.mem_singleton.mp hu))
    · intro u hu _
      simp only [List.foldl_nil]
      exact le_of_eq (List.mem_singleton.mp hu).symm
  | cons t ts ih =>
    intro b hpw
    obtain ⟨hb, hpw1⟩ := List.pairwise_cons.mp hpw
    obtain ⟨htts, hts⟩ := List.pairwise_cons.mp hpw1
    rw [List.foldl_cons]
    by_cases hJ : J b < J t
    · rw [if_pos hJ]
      obtain ⟨hmem, hmax, htie⟩ := ih t hpw1
      refine ⟨List.mem_cons_of_mem b hmem, ?_, ?_⟩
      · intro u hu
        rcases List.mem_cons.mp hu with rfl | hu
        · exact le_of_lt (lt_of_lt_of_le hJ (hmax t (List.mem_cons_self t ts)))
        · exact hmax u hu
      · intro u hu hJu
        rcases List.mem_cons.mp hu with rfl | hu
        · exact absurd hJu
            (ne_of_lt (lt_of_lt_of_le hJ (hmax t (List.mem_cons_self t ts))))
        · exact htie u hu hJu
    · rw [if_neg hJ]
      have hpw2 : (b :: ts).Pairwise (· ≤ ·) := by
        rw [List.pairwise_cons]
        exact ⟨fun u hu => hb u (List.mem_cons_of_mem t hu), hts⟩
      obtain ⟨hmem, hmax, htie⟩ := ih b hpw2
      refine ⟨?_, ?_, ?_⟩
      · rcases List.mem_cons.mp hmem with hr | hr
        · rw [hr]
          exact List.mem_cons_self b (t :: ts)
        · exact List.mem_cons_of_mem b (List.mem_cons_of_mem t hr)
      · intro u hu
        rcases List.mem_cons.mp hu with rfl | hu
        · exact hmax u (List.mem_cons_self u ts)
        · rcases List.mem_cons.mp hu with rfl | hu
          · exact le_trans (le_of_not_lt hJ) (hmax b (List.mem_cons_self b ts))
          · exact hmax u (List.mem_cons_of_mem b hu)
      · intro u hu hJu
        rcases List.mem_cons.mp hu with rfl | hu
        · exact htie u (List.mem_cons_self u ts) hJu
        · rcases List.mem_cons.mp hu with rfl | hu
          · have hJb : J b = J (ts.foldl (fun best u =>
                if J best < J u then u else best) b) :=
              le_antisymm (hmax b (List.mem_cons_self b ts))
                (hJu ▸ le_of_not_lt hJ)
            exact le_trans (htie b (List.mem_cons_self b ts) hJb)
              (hb u (List.mem_cons_self u ts))
          · exact htie u (List.mem_cons_of_mem b hu) hJu

/-- C3 (amended).  Youden threshold selection: bestYouden over the
evaluated thresholds returns a member of the evaluated list attaining the
maximal youdenJ, breaking ties by the lowest threshold in the ascending
order, and every evaluated threshold is at most some pattern score (no
above-maximum endpoint is evaluated). -/
theorem claim3_youden_selection (h : Hist) (t : ℚ)
    (ht : bestYouden h autoThresholds = some t) :
    t ∈ autoThresholds ∧
    (∀ u ∈ autoThresholds, youdenAt h u ≤ youdenAt h t) ∧
    (∀ u ∈ autoThresholds, youdenAt h u = youdenAt h t → t ≤ u) ∧
    (∀ u ∈ autoThresholds, ∃ s ∈ scoresByPattern, u ≤ s) := by
  have hpw : autoThresholds.Pairwise (· ≤ ·) := by
    rw [autoThresholds_eq]
    norm_num [List.pairwise_cons]
  have hach : ∀ u ∈ autoThresholds, ∃ s ∈ scoresByPattern, u ≤ s := by
    intro u hu
    refine ⟨wSM + wCR + wPH, by simp [scoresByPattern], ?_⟩
    rw [autoThresholds_eq] at hu
    fin_cases hu <;> norm_num [wSM, wCR, wPH]
  rcases hthr : autoThresholds with _ | ⟨t0, ts⟩
  · rw [hthr] at ht
    simp [bestYouden] at ht
  · rw [hthr] at ht hpw hach
    simp only [bestYouden, Option.some.injEq] at ht
    obtain ⟨hmem, hmax, htie⟩ := foldl_argmax_spec (youdenAt h) ts t0 hpw
    rw [ht] at hmem hmax htie
    exact ⟨hmem, hmax, htie, hach⟩

/-- The original claim asserts that a trivial endpoint above the maximum
score (predicting all records negative) is among the evaluated
thresholds; in fact no evaluated threshold exceeds every pattern score. -/
theorem claim3_counterexample :
    ¬ ∃ t ∈ autoThresholds, ∀ s ∈ scoresByPattern, s < t := by
  rintro ⟨t, htm, hall⟩
  have hlast := hall (wSM + wCR + wPH) (by simp [scoresByPattern])
  rw [autoThresholds_eq] at htm
  fin_cases htm <;> norm_num [wSM, wCR, wPH] at hlast

theorem youdenAt_emptyHist (t : ℚ) : youdenAt emptyHist t = 0 := by
  simp [youdenAt, metricsRowAt, histPos, histNeg, emptyHist]

theorem foldl_youden_const (h : Hist) (hJ : ∀ u, youdenAt h u = 0) :
    ∀ (ts : List ℚ) (b : ℚ),
      ts.foldl (fun best u => if youdenAt h best < youdenAt h u then u else best) b
        = b := by
  intro ts
  induction ts with
  | nil => intro b; rfl
  | cons t ts ih => intro b; simp [hJ, ih]

theorem bestYouden_emptyHist : bestYouden emptyHist autoThresholds = some 0 := by
  rw [autoThresholds_eq]
  simp only [bestYouden, Option.some.injEq]
  exact foldl_youden_const emptyHist youdenAt_emptyHist _ 0

/-- At the all-zero histogram the selector returns threshold 0, a member
of the evaluated list attaining the maximal youdenJ. -/
theorem claim3_witness :
    (0 : ℚ) ∈ autoThresholds ∧
    ∀ u ∈ autoThresholds, youdenAt emptyHist u ≤ youdenAt emptyHist 0 := by
  obtain ⟨h1, h2, _, _⟩ := claim3_youden_selection emptyHist 0 bestYouden_emptyHist
  exact ⟨h1, h2⟩

/- Recall-floor threshold selection: pick_thresholds of
src/data/evaluation/train/final_threshold/find_threshold.py lines 102-114
(same logic in train/find_thresholds.py lines 76-89).  The tpr and fpr of
a candidate threshold over the scored sample are those of
metrics_at_threshold (lines 77-88). -/

/-- tpr of metrics_at_threshold over a scored sample, guarded
(find_threshold.py line 84). -/
def sampleTPR (sample : List (Bool × ℚ)) (t : ℚ) : ℚ :=
  let pos := directTP sample t + directFN sample t
  if pos = 0 then 0 else (directTP sample t : ℚ) / (pos : ℚ)

/-- fpr of metrics_at_threshold over a scored sample, guarded
(find_threshold.py line 85). -/
def sampleFPR (sample : List (Bool × ℚ)) (t : ℚ) : ℚ :=
  let neg := directTN sample t + directFP sample t
  if neg = 0 then 0 else (directFP sample t : ℚ) / (neg : ℚ)

/-- Recall-floor selection (find_threshold.py lines 102-113): among the
candidate thresholds achieving tpr at or above the target, the first one
minimizing fpr (np.argmin returns the first minimizer); none when no
candidate reaches the target, the reported not-reachable outcome. -/
def recallFloorPick (sample : List (Bool × ℚ)) (cands : List ℚ)
    (target : ℚ) : Option ℚ :=
  match cands.filter (fun t => target ≤ sampleTPR sample t) with
  | [] => none
  | t :: ts => some (ts.foldl (fun best u =>
      if sampleFPR sample u < sampleFPR sample best then u else best) t)

/-- First-minimum fold: the result is a member of the list and attains the
minimal key. -/
theorem foldl_argmin_spec (F : ℚ → ℚ) :
    ∀ (ts : List ℚ) (b : ℚ),
      (ts.foldl (fun best u => if F u < F best then u else best) b) ∈ b :: ts ∧
      ∀ u ∈ b :: ts,
        F (ts.foldl (fun best u => if F u < F best then u else best) b) ≤ F u := by
  intro ts
  induction ts with
  | nil =>
    intro b
    refine ⟨List.mem_singleton_self b, ?_⟩
    intro u hu
    simp only [List.foldl_nil]
    exact le_of_eq (congrArg F (List.mem_singleton.mp hu)).symm
  | cons t ts ih =>
    intro b
    rw [List.foldl_cons]
    by_cases hF : F t < F b
    · rw [if_pos hF]
      obtain ⟨hmem, hmin⟩ := ih t
      refine ⟨List.mem_cons_of_mem b hmem, ?_⟩
      intro u hu
      rcases List.mem_cons.mp hu with rfl | hu
      · exact le_trans (hmin t (List.mem_cons_self t ts)) (le_of_lt hF)
      · exact hmin u hu
    · rw [if_neg hF]
      obtain ⟨hmem, hmin⟩ := ih b
      refine ⟨?_, ?_⟩
      · rcases List.mem_cons.mp hmem with hr | hr
        · rw [hr]
          exact List.mem_cons_self b (t :: ts)
        · exact List.mem_cons_of_mem b (List.mem_cons_of_mem t hr)
      · intro u hu
        rcases List.mem_cons.mp hu with rfl | hu
        · exact hmin u (List.mem_cons_self u ts)
        · rcases List.mem_cons.mp hu with rfl | hu
          · exact le_trans (hmin b (List.mem_cons_self b ts)) (le_of_not_lt hF)
          · exact hmin u (List.mem_cons_of_mem b hu)

/-- C5.  Recall-floor selection: the selector returns the not-reachable
outcome (none) exactly when no candidate threshold reaches the recall
target, and otherwise returns a candidate that reaches the target and
minimizes fpr among all candidates reaching it. -/
theorem claim5_recall_floor (sample : List (Bool × ℚ)) (cands : List ℚ)
    (target : ℚ) :
    (recallFloorPick sample cands target = none ↔
      ∀ u ∈ cands, sampleTPR sample u < target) ∧
    (∀ t, recallFloorPick sample cands target = some t →
      t ∈ cands ∧ target ≤ sampleTPR sample t ∧
      ∀ u ∈ cands, target ≤ sampleTPR sample u →
        sampleFPR sample t ≤ sampleFPR sample u) := by
  constructor
  · constructor
    · intro hnone u hu
      by_contra hge
      push_neg at hge
      have hmem : u ∈ cands.filter (fun t => target ≤ sampleTPR sample t) :=
        List.mem_filter.mpr ⟨hu, by simpa using hge⟩
      unfold recallFloorPick at hnone
      rcases hq : cands.filter (fun t => target ≤ sampleTPR sample t)
        with _ | ⟨t0, ts⟩
      · rw [hq] at hmem
        exact absurd hmem (List.not_mem_nil u)
      · rw [hq] at hnone
        exact Option.noConfusion hnone
    · intro hall
      unfold recallFloorPick
      rcases hq : cands.filter (fun t => target ≤ sampleTPR sample t)
        with _ | ⟨t0, ts⟩
      · rfl
      · exfalso
        have hmem : t0 ∈ cands.filter (fun t => target ≤ sampleTPR sample t) := by
          rw [hq]
          exact List.mem_cons_self t0 ts
        obtain ⟨ht0c, hdec⟩ := List.mem_filter.mp hmem
        have := hall t0 ht0c
        simp only [decide_eq_true_eq] at hdec
        exact absurd hdec (not_le_of_lt this)
  · intro t ht
    unfold recallFloorPick at ht
    rcases hq : cands.filter (fun t => target ≤ sampleTPR sample t)
      with _ | ⟨t0, ts⟩
    · rw [hq] at ht
      exact Option.noConfusion ht
    · rw [hq] at ht
      simp only [Option.some.injEq] at ht
      obtain ⟨hmem, hmin⟩ := foldl_argmin_spec (sampleFPR sample) ts t0
      rw [ht] at hmem hmin
      have hmemf : t ∈ cands.filter (fun t => target ≤ sampleTPR sample t) := by
        rw [hq]
        exact hmem
      obtain ⟨htc, htdec⟩ := List.mem_filter.mp hmemf
      refine ⟨htc, by simpa using htdec, ?_⟩
      intro u hu hTu
      have huf : u ∈ cands.filter (fun t => target ≤ sampleTPR sample t) :=
        List.mem_filter.mpr ⟨hu, by simpa using hTu⟩
      rw [hq] at huf
      exact hmin u huf

theorem sampleTPR_single : sampleTPR [(true, 1)] (1/2) = 1 := by
  norm_num [sampleTPR, directTP, directFN, List.countP_cons, List.countP_nil]

theorem recallFloorPick_single :
    recallFloorPick [(true, 1)] [1/2] (1/2) = some (1/2) := by
  unfold recallFloorPick
  rw [show ([1/2] : List ℚ).filter
      (fun t => (1:ℚ)/2 ≤ sampleTPR [(true, 1)] t) = [1/2] by
    norm_num [List.filter_cons, sampleTPR_single]]
  rfl

/-- A reachable recall target: over the one-positive sample the target 1/2
is reached at the single candidate threshold, which the selector
returns. -/
theorem claim5_witness :
    (1/2 : ℚ) ∈ ([1/2] : List ℚ) ∧
    (1/2 : ℚ) ≤ sampleTPR [(true, 1)] (1/2) := by
  have hs := (claim5_recall_floor [(true, 1)] [1/2] (1/2)).2 (1/2)
    recallFloorPick_single
  exact ⟨hs.1, hs.2.1⟩

/- The Binarizer and its drop policy, per pipeline.  In
src/data/evaluation/train/weight/preprocess.py lines 52-76 a record is
masked out exactly when some used raw value or the label is NaN (line 64
tests np.isnan only), and the flags of a surviving record are the float
comparisons value-at-or-above-tau of line 76 - an infinite value passes
the mask and is binarized.  In src/data/evaluation/weight_and_threshold/
weight_finding/train_weights.py lines 40-43 a missing detector value is
instead imputed: features are coerced to numbers, NaN filled with 0.0 and
clipped to [0,1], and the record stays a training row. -/

end CorrELF
